import Mathlib

/-!
# Verification of the AstrologyMultilan browser client (src/static/script.js)

A shallow embedding of the single frontend script of the repository.
Pure string processing (the `formatMessage` markup pipeline) is embedded
as executable functions on `List Char`; the four mutable globals
(`isProcessing`, `currentState`, `currentLang`, `currentHints`) together
with the DOM-visible pieces the script mutates (chat bubbles, the input
field, the typing indicator, the send button) form a `ClientState`
record; each asynchronous operation (`initChat`, `sendMessage`,
`toggleLanguage`, `resetChat`, `downloadPDF`) is split into a start event
(its synchronous prefix, which may emit an HTTP request) and a completion
event (the `await`/`then`/`catch` continuation applied to the server's
reply or to a network failure).  `run` folds an arbitrary event trace
from the initial state, so theorems quantified over traces cover every
interleaving of these operations.

JavaScript values that can be `undefined` are embedded as `Option`:
`currentState`/`currentLang` are `Option String` (with `none` playing the
role of `undefined`), a JS object field that may be absent is an `Option`
field, and JS truthiness of a string (`if (data.lang)`) is
"present and non-empty".
-/

/-- `String.prototype.trim`: ASCII whitespace and line terminators are
stripped from both ends (we model the common whitespace characters). -/
def jsSpace (c : Char) : Bool :=
  c = ' ' || c = '\t' || c = '\n' || c = '\r' || c = '\x0b' || c = '\x0c'

/-- `userInput.value.trim()` from `sendMessage` (line 106). -/
def jsTrim (s : String) : String :=
  ⟨((s.data.dropWhile jsSpace).reverse.dropWhile jsSpace).reverse⟩

/-- Template-literal interpolation of a possibly-undefined string:
JS renders `undefined` as the text "undefined". -/
def jsStr : Option String → String
  | some s => s
  | none => "undefined"

/-- JS truthiness of an optional string field: `undefined` and the empty
string are falsy, every other string is truthy. -/
def truthyStr : Option String → Bool
  | none => false
  | some s => s ≠ ""

/-! ## The `formatMessage` pipeline (script.js lines 167-190)

Each `String.prototype.replace(regex, repl)` with a global regex is
embedded as a left-to-right scan over the character list.  The lazy
patterns `/\*\*(.*?)\*\*/g`, `/_(.*?)_/g` and the backtick pattern scan
for the opening delimiter and then take the shortest newline-free run of
characters up to the closing delimiter (`.` does not match a newline);
`/═{3,}/g` greedily consumes maximal runs of '═'.  The recursions
carry the list length as structural fuel so that every definition
reduces inside the kernel; with non-empty delimiters the fuel can never
run out before the scan ends. -/

/-- Search for the shortest newline-free prefix of `l` that is followed by
the literal delimiter `close`; return that prefix (the lazy group) and
the remainder after the delimiter.  This is the lazy-group search of a
pattern such as `(.*?)\*\*`. -/
def findClose (close : List Char) : List Char → Option (List Char × List Char)
  | [] => if close.isPrefixOf ([] : List Char) then some ([], []) else none
  | c :: t =>
    if close.isPrefixOf (c :: t) then some ([], (c :: t).drop close.length)
    else if c = '\n' then none
    else (findClose close t).map (fun p => (c :: p.1, p.2))

/-- One global lazy replace `s.replace(/op(.*?)cl/g, wrap)`: scan left to
right; at an occurrence of `op`, if the lazy search for `cl` succeeds the
match is rewritten with `wrap` and scanning resumes after the match,
otherwise (and at every non-matching position) the scanner advances one
character. -/
def replaceLazy (op cl : List Char) (wrap : List Char → List Char) :
    Nat → List Char → List Char
  | _, [] => []
  | 0, l => l
  | fu + 1, c :: t =>
    if op.isPrefixOf (c :: t) then
      match findClose cl ((c :: t).drop op.length) with
      | some (cont, rest) => wrap cont ++ replaceLazy op cl wrap fu rest
      | none => c :: replaceLazy op cl wrap fu t
    else c :: replaceLazy op cl wrap fu t

def replaceLazyAll (op cl : List Char) (wrap : List Char → List Char)
    (l : List Char) : List Char :=
  replaceLazy op cl wrap l.length l

/-- Replacement `'<strong>$1</strong>'` for the bold pattern. -/
def strongWrap (g : List Char) : List Char :=
  "<strong>".data ++ g ++ "</strong>".data

/-- Replacement `'<em>$1</em>'` for the italic pattern. -/
def emWrap (g : List Char) : List Char :=
  "<em>".data ++ g ++ "</em>".data

/-- Replacement `'<code>$1</code>'` for the inline-code pattern. -/
def codeWrap (g : List Char) : List Char :=
  "<code>".data ++ g ++ "</code>".data

/-- Replacement for the link pattern (script.js line 181). -/
def linkWrap (txt url : List Char) : List Char :=
  "<a href=\"".data ++ url ++
    "\" style=\"color: var(--accent-gold); text-decoration: underline;\">".data ++
    txt ++ "</a>".data

/-- The link pattern `/\[(.*?)\]\((.*?)\)/g`: an opening '[', the lazy
text group up to the literal "](", then the lazy url group up to ')'. -/
def replaceLink : Nat → List Char → List Char
  | _, [] => []
  | 0, l => l
  | fu + 1, c :: t =>
    if c = '[' then
      match findClose "](".data t with
      | some (txt, rest1) =>
        match findClose ")".data rest1 with
        | some (url, rest2) => linkWrap txt url ++ replaceLink fu rest2
        | none => c :: replaceLink fu t
      | none => c :: replaceLink fu t
    else c :: replaceLink fu t

def replaceLinkAll (l : List Char) : List Char :=
  replaceLink l.length l

/-- Replacement `'<span class="msg-separator"></span>'` for `/═{3,}/g`. -/
def sepSpan : List Char := "<span class=\"msg-separator\"></span>".data

/-- Greedy scan for `/═{3,}/g`: `n` counts the pending run of '═'
characters already consumed. -/
def replaceSepAux : Nat → List Char → List Char
  | n, [] => if 3 ≤ n then sepSpan else List.replicate n '═'
  | n, c :: t =>
    if c = '═' then replaceSepAux (n + 1) t
    else (if 3 ≤ n then sepSpan else List.replicate n '═') ++ c :: replaceSepAux 0 t

def replaceSep (l : List Char) : List Char := replaceSepAux 0 l

/-! ## HTML escaping (script.js lines 169-172)

Three sequential global single-character replaces:
`.replace(/&/g, '&amp;').replace(/</g, '&lt;').replace(/>/g, '&gt;')`. -/

/-- One global single-character replace `s.replace(/a/g, rep)`. -/
def replaceCharAll (a : Char) (rep : List Char) (l : List Char) : List Char :=
  l.flatMap fun c => if c = a then rep else [c]

def escapeHtmlL (l : List Char) : List Char :=
  replaceCharAll '>' "&gt;".data
    (replaceCharAll '<' "&lt;".data
      (replaceCharAll '&' "&amp;".data l))

def escapeHtml (s : String) : String := ⟨escapeHtmlL s.data⟩

/-- Pointwise description of the composed escaping (the replacement
texts of the later replaces re-introduce none of the earlier targets,
so the three passes act as one character map). -/
def escChar (c : Char) : List Char :=
  if c = '&' then "&amp;".data
  else if c = '<' then "&lt;".data
  else if c = '>' then "&gt;".data
  else [c]

/-- The backtick delimiter of the inline-code pattern. -/
def backquoteStr : String := "`"

/-- `formatMessage` (script.js lines 167-190): escape HTML, then bold,
italic, links, inline code, separator lines, in that order. -/
def formatMessage (text : String) : String :=
  let h1 := escapeHtmlL text.data
  let h2 := replaceLazyAll "**".data "**".data strongWrap h1
  let h3 := replaceLazyAll "_".data "_".data emWrap h2
  let h4 := replaceLinkAll h3
  let h5 := replaceLazyAll backquoteStr.data backquoteStr.data codeWrap h4
  ⟨replaceSep h5⟩

/-! ## Server responses and HTTP requests

The script dereferences `data.response` and `data.state` without a
guard (an `undefined` response text would already throw inside
`addMessage`), so `response` is embedded as present; `state` is merely
stored, so it stays optional like `lang` and `hints`.  `hints` is a JS
object, embedded as an association list; a present object — even the
empty one — is truthy. -/

structure ServerData where
  response : String
  state : Option String
  lang : Option String
  hints : Option (List (String × String))
deriving DecidableEq, Repr

/-- An HTTP request as the script builds it: method, full URL (query
string included) and the fields of the `JSON.stringify`-ed body.
`JSON.stringify` omits a key whose value is `undefined`. -/
structure HttpRequest where
  method : String
  url : String
  body : List (String × String)
deriving DecidableEq, Repr

/-- `fetch('/api/init?lang=' + currentLang)` (lines 87 and 285). -/
def initRequest (lang : String) : HttpRequest :=
  ⟨"GET", "/api/init?lang=" ++ lang, []⟩

/-- `fetch('/api/chat', {method:'POST', body: JSON.stringify({message: msg, lang: currentLang})})`
(lines 117-121); the `lang` key is dropped when `currentLang` is undefined. -/
def chatRequest (msg : String) (lang : Option String) : HttpRequest :=
  ⟨"POST", "/api/chat",
    ("message", msg) :: (match lang with | some l => [("lang", l)] | none => [])⟩

/-- `fetch('/api/set_lang', {method:'POST', body: JSON.stringify({lang: newLang})})`
(lines 53-57). -/
def setLangRequest (lang : String) : HttpRequest :=
  ⟨"POST", "/api/set_lang", [("lang", lang)]⟩

/-- `fetch('/api/generate-pdf', {method:'POST'})` (line 251). -/
def pdfRequest : HttpRequest := ⟨"POST", "/api/generate-pdf", []⟩

/-! ## Client state -/

/-- The mutable state the script owns: the four top-level `let`
variables (script.js lines 13-16) plus the DOM pieces it mutates — the
chat bubble list (role and rendered innerHTML of each bubble), the text
of the input field, the presence of the typing indicator, and the
disabled flag of the send button. -/
structure ClientState where
  isProcessing : Bool
  currentState : Option String
  currentLang : Option String
  currentHints : List (String × String)
  messages : List (String × String)
  inputValue : String
  typing : Bool
  btnDisabled : Bool
deriving DecidableEq, Repr

/-- Initial values (script.js lines 13-16; DOM initially empty/idle). -/
def initState : ClientState :=
  ⟨false, some "greeting", some "my", [], [], "", false, false⟩

/-- `addMessage(role, content)` (lines 147-164): append one bubble whose
innerHTML is `formatMessage(content)`. -/
def addMessage (st : ClientState) (role content : String) : ClientState :=
  { st with messages := st.messages ++ [(role, formatMessage content)] }

/-- `if (data.lang) currentLang = data.lang;` (lines 92 and 130 and 288). -/
def langUpd (cur field : Option String) : Option String :=
  if truthyStr field then field else cur

/-- `if (data.hints) currentHints = data.hints;` (lines 93 and 289):
a present object is truthy, an absent field leaves the table alone. -/
def hintsUpd (cur : List (String × String))
    (field : Option (List (String × String))) : List (String × String) :=
  match field with
  | some h => h
  | none => cur

/-- `currentHints = data.hints || {};` (line 60): an absent field is
replaced by the empty table, not kept. -/
def hintsOrEmpty (field : Option (List (String × String))) :
    List (String × String) :=
  match field with
  | some h => h
  | none => []

/-- Localized error bubble of `initChat`'s catch (lines 97-99). -/
def initErrMsg (lang : Option String) : String :=
  if lang = some "en" then "❌ Cannot connect to server. Please try again."
  else "❌ ဆာဗာနှင့် ချိတ်ဆက်၍ မရပါ။ ထပ်မံကြိုးစားပါ။"

/-- Localized error bubble of `sendMessage`'s catch (lines 135-137). -/
def sendErrMsg (lang : Option String) : String :=
  if lang = some "en" then "❌ Something went wrong. Please try again."
  else "❌ တစ်စုံတစ်ခု မှားယွင်းနေပါသည်။ ထပ်မံကြိုးစားပါ။"

/-- Success bubble of `downloadPDF` (line 274). -/
def pdfOkMsg : String := "✅ PDF ဟောစာတမ်း ဒေါင်းလုဒ် အောင်မြင်ပါပြီ! 🎉"

/-- Error bubble of `downloadPDF`'s catch (line 276). -/
def pdfErrMsg : String := "❌ PDF ဖန်တီးရာတွင် အမှားရှိပါသည်။ ထပ်မံကြိုးစားပါ။"

/-! ## Events

Each asynchronous operation is split at its `await`/`.then` boundary.
A `...Done (some d)` event is the continuation run on a parsed server
reply `d`; a `...Done none` event is the rejection path (network error
or JSON parse failure). -/

inductive Event where
  | userTypes (s : String)
  | initStart
  | initDone (r : Option ServerData)
  | sendStart
  | sendDone (r : Option ServerData)
  | toggleStart
  | toggleDone (r : Option ServerData)
  | resetStart
  | resetDone (r : Option ServerData)
  | pdfStart
  | pdfDone (ok : Bool)
deriving DecidableEq, Repr

/-- One event: the new client state and the HTTP requests the event
issues, line by line from script.js.

* `initStart`/`initDone`: `initChat` (lines 84-102).
* `sendStart`/`sendDone`: `sendMessage` (lines 105-144); the synchronous
  prefix returns immediately on an empty trimmed input or while
  `isProcessing` is set.
* `toggleStart`/`toggleDone`: `toggleLanguage` (lines 50-67); the success
  continuation assigns `data.lang`/`data.hints || {}` unconditionally and
  then runs `resetChat()` (which clears the chat area — typing indicator
  included — resets `currentState` to 'greeting' and re-fetches
  `/api/init`); the failure path only logs to the console.
* `resetStart`/`resetDone`: `resetChat` (lines 281-292); its promise
  chain has no catch, so a failure changes nothing.
* `pdfStart`/`pdfDone`: `downloadPDF` (lines 249-278); the blob/anchor
  plumbing touches no modelled state, only the final bubble does. -/
def stepE (st : ClientState) (e : Event) : ClientState × List HttpRequest :=
  match e with
  | .userTypes s => ({ st with inputValue := s }, [])
  | .initStart =>
      ({ st with typing := true }, [initRequest (jsStr st.currentLang)])
  | .initDone (some d) =>
      ({ st with typing := false,
                 messages := st.messages ++ [("bot", formatMessage d.response)],
                 currentState := d.state,
                 currentLang := langUpd st.currentLang d.lang,
                 currentHints := hintsUpd st.currentHints d.hints }, [])
  | .initDone none =>
      ({ st with typing := false,
                 messages := st.messages
                   ++ [("bot", formatMessage (initErrMsg st.currentLang))] }, [])
  | .sendStart =>
      let msg := jsTrim st.inputValue
      if msg == "" || st.isProcessing then (st, [])
      else
        ({ st with isProcessing := true, btnDisabled := true, inputValue := "",
                   typing := true,
                   messages := st.messages ++ [("user", formatMessage msg)] },
         [chatRequest msg st.currentLang])
  | .sendDone (some d) =>
      ({ st with typing := false,
                 messages := st.messages ++ [("bot", formatMessage d.response)],
                 currentState := d.state,
                 currentLang := langUpd st.currentLang d.lang,
                 isProcessing := false, btnDisabled := false }, [])
  | .sendDone none =>
      ({ st with typing := false,
                 messages := st.messages
                   ++ [("bot", formatMessage (sendErrMsg st.currentLang))],
                 isProcessing := false, btnDisabled := false }, [])
  | .toggleStart =>
      (st, [setLangRequest (if st.currentLang = some "my" then "en" else "my")])
  | .toggleDone (some d) =>
      ({ st with currentLang := d.lang,
                 currentHints := hintsOrEmpty d.hints,
                 messages := [], typing := false,
                 currentState := some "greeting" }, [initRequest (jsStr d.lang)])
  | .toggleDone none => (st, [])
  | .resetStart =>
      ({ st with messages := [], typing := false,
                 currentState := some "greeting" },
       [initRequest (jsStr st.currentLang)])
  | .resetDone (some d) =>
      ({ st with messages := st.messages ++ [("bot", formatMessage d.response)],
                 currentState := d.state,
                 currentLang := langUpd st.currentLang d.lang,
                 currentHints := hintsUpd st.currentHints d.hints }, [])
  | .resetDone none => (st, [])
  | .pdfStart => (st, [pdfRequest])
  | .pdfDone true =>
      ({ st with messages := st.messages ++ [("bot", formatMessage pdfOkMsg)] }, [])
  | .pdfDone false =>
      ({ st with messages := st.messages ++ [("bot", formatMessage pdfErrMsg)] }, [])

def stepS (st : ClientState) (e : Event) : ClientState := (stepE st e).1

/-- The client state after an arbitrary trace of events. -/
def run (es : List Event) : ClientState := es.foldl stepS initState

/-- All HTTP requests a trace issues, starting from `st`. -/
def runReqFrom : ClientState → List Event → List HttpRequest
  | _, [] => []
  | st, e :: es => (stepE st e).2 ++ runReqFrom (stepE st e).1 es

def runReq (es : List Event) : List HttpRequest := runReqFrom initState es

/-- Parsed replies of `/api/init` and `/api/chat` carried by a single
event (the claims about `currentState` speak only about these two
endpoints; `resetChat` also consumes an `/api/init` reply). -/
def chatRepliesOfEvent : Event → List ServerData
  | .initDone (some d) => [d]
  | .sendDone (some d) => [d]
  | .resetDone (some d) => [d]
  | _ => []

def chatReplies (es : List Event) : List ServerData :=
  es.flatMap chatRepliesOfEvent

/-- Every parsed server reply carried by a single event (adds the
`/api/set_lang` reply consumed by `toggleLanguage`). -/
def allRepliesOfEvent : Event → List ServerData
  | .initDone (some d) => [d]
  | .sendDone (some d) => [d]
  | .resetDone (some d) => [d]
  | .toggleDone (some d) => [d]
  | _ => []

def allReplies (es : List Event) : List ServerData :=
  es.flatMap allRepliesOfEvent

/-! ## Basic theorems about the operations -/

/-- The four endpoints the script can contact (`/api/init` carries its
language query parameter). -/
def knownEndpoint (r : HttpRequest) : Prop :=
  (r.method = "GET" ∧ ∃ l, r.url = "/api/init?lang=" ++ l)
  ∨ (r.method = "POST" ∧ r.url = "/api/chat")
  ∨ (r.method = "POST" ∧ r.url = "/api/set_lang")
  ∨ (r.method = "POST" ∧ r.url = "/api/generate-pdf")

lemma stepE_requests_known (st : ClientState) (e : Event) (r : HttpRequest)
    (h : r ∈ (stepE st e).2) : knownEndpoint r := by
  cases e with
  | userTypes s => simp [stepE] at h
  | initStart =>
      simp [stepE] at h
      subst h
      exact Or.inl ⟨rfl, jsStr st.currentLang, rfl⟩
  | initDone r' => cases r' <;> simp [stepE] at h
  | sendStart =>
      by_cases hc : (jsTrim st.inputValue == "" || st.isProcessing) = true
      · simp [stepE, hc] at h
      · simp [stepE, hc] at h
        subst h
        exact Or.inr (Or.inl ⟨rfl, rfl⟩)
  | sendDone r' => cases r' <;> simp [stepE] at h
  | toggleStart =>
      simp [stepE] at h
      subst h
      exact Or.inr (Or.inr (Or.inl ⟨rfl, rfl⟩))
  | toggleDone r' =>
      cases r' with
      | none => simp [stepE] at h
      | some d =>
          simp [stepE] at h
          subst h
          exact Or.inl ⟨rfl, jsStr d.lang, rfl⟩
  | resetStart =>
      simp [stepE] at h
      subst h
      exact Or.inl ⟨rfl, jsStr st.currentLang, rfl⟩
  | resetDone r' => cases r' <;> simp [stepE] at h
  | pdfStart =>
      simp [stepE] at h
      subst h
      exact Or.inr (Or.inr (Or.inr ⟨rfl, rfl⟩))
  | pdfDone ok => cases ok <;> simp [stepE] at h

lemma runReqFrom_known (es : List Event) :
    ∀ st r, r ∈ runReqFrom st es → knownEndpoint r := by
  induction es with
  | nil => intro st r h; simp [runReqFrom] at h
  | cons e es ih =>
      intro st r h
      simp only [runReqFrom, List.mem_append] at h
      rcases h with h | h
      · exact stepE_requests_known st e r h
      · exact ih _ r h

/-- C4: every HTTP request the program ever issues goes to one of exactly
four endpoints: GET `/api/init`, POST `/api/chat`, POST `/api/set_lang`,
POST `/api/generate-pdf`; no operation ever contacts any other URL. -/
theorem requests_known_endpoints (es : List Event) (r : HttpRequest)
    (h : r ∈ runReq es) : knownEndpoint r :=
  runReqFrom_known es initState r h

theorem requests_known_endpoints_witness :
    pdfRequest ∈ runReq [Event.pdfStart] ∧ knownEndpoint pdfRequest :=
  ⟨by decide, requests_known_endpoints [Event.pdfStart] pdfRequest (by decide)⟩

/-- C10: for every user input whose trimmed value is the empty string,
`sendMessage` is a no-op: it issues no request, appends no message, and
leaves every piece of state unchanged. -/
theorem sendMessage_empty_noop (st : ClientState)
    (h : jsTrim st.inputValue = "") :
    stepE st Event.sendStart = (st, []) := by
  simp [stepE, h]

theorem sendMessage_empty_noop_witness :
    jsTrim ({ initState with inputValue := "  " } : ClientState).inputValue = ""
    ∧ stepE { initState with inputValue := "  " } Event.sendStart
        = ({ initState with inputValue := "  " }, []) :=
  ⟨by decide, sendMessage_empty_noop _ (by decide)⟩

/-- C5: while a `/api/chat` request initiated by `sendMessage` is in
flight (`isProcessing` is true), every further call to `sendMessage`
returns immediately without issuing a request or mutating any state;
and a call that does proceed raises `isProcessing` and issues exactly the
one chat request, so at most one chat request is pending at any time. -/
theorem sendMessage_single_flight (st : ClientState) :
    (st.isProcessing = true → stepE st Event.sendStart = (st, []))
    ∧ (st.isProcessing = false → jsTrim st.inputValue ≠ "" →
        (stepS st Event.sendStart).isProcessing = true
        ∧ (stepE st Event.sendStart).2
            = [chatRequest (jsTrim st.inputValue) st.currentLang]) := by
  constructor
  · intro h; simp [stepE, h]
  · intro h1 h2; simp [stepS, stepE, h1, h2]

theorem sendMessage_single_flight_witness :
    ({ initState with isProcessing := true } : ClientState).isProcessing = true
    ∧ stepE { initState with isProcessing := true } Event.sendStart
        = ({ initState with isProcessing := true }, [])
    ∧ ({ initState with inputValue := "hi" } : ClientState).isProcessing = false
    ∧ jsTrim ({ initState with inputValue := "hi" } : ClientState).inputValue ≠ ""
    ∧ (stepS { initState with inputValue := "hi" } Event.sendStart).isProcessing
        = true :=
  ⟨rfl, (sendMessage_single_flight _).1 rfl, rfl, by decide,
    ((sendMessage_single_flight
        { initState with inputValue := "hi" }).2 rfl (by decide)).1⟩

/-- C1: for every non-empty trimmed user input (on an idle client whose
language is defined), `sendMessage` forwards exactly the trimmed text as
the `message` field of a POST to `/api/chat` together with the current
language code, appends it as a user bubble, and on a successful response
appends the response's `response` field (after formatting) as a bot
bubble. -/
theorem sendMessage_forwards_trimmed (st : ClientState) (L : String)
    (h1 : st.isProcessing = false) (h2 : jsTrim st.inputValue ≠ "")
    (h3 : st.currentLang = some L) :
    (stepE st Event.sendStart).2
      = [⟨"POST", "/api/chat",
          [("message", jsTrim st.inputValue), ("lang", L)]⟩]
    ∧ (stepS st Event.sendStart).messages
      = st.messages ++ [("user", formatMessage (jsTrim st.inputValue))]
    ∧ ∀ d : ServerData,
        (stepS (stepS st Event.sendStart) (Event.sendDone (some d))).messages
          = st.messages ++ [("user", formatMessage (jsTrim st.inputValue)),
                            ("bot", formatMessage d.response)] := by
  refine ⟨?_, ?_, ?_⟩
  · simp [stepE, h1, h2, h3, chatRequest]
  · simp [stepS, stepE, h1, h2]
  · intro d
    simp [stepS, stepE, h1, h2]

theorem sendMessage_forwards_trimmed_witness :
    ({ initState with inputValue := " hello " } : ClientState).isProcessing = false
    ∧ jsTrim ({ initState with inputValue := " hello " } : ClientState).inputValue ≠ ""
    ∧ ({ initState with inputValue := " hello " } : ClientState).currentLang = some "my"
    ∧ (stepE { initState with inputValue := " hello " } Event.sendStart).2
        = [⟨"POST", "/api/chat",
            [("message",
              jsTrim ({ initState with inputValue := " hello " } : ClientState).inputValue),
             ("lang", "my")]⟩]
    ∧ (stepS (stepS { initState with inputValue := " hello " } Event.sendStart)
          (Event.sendDone (some ⟨"welcome", some "ask_dob", none, none⟩))).messages
        = ({ initState with inputValue := " hello " } : ClientState).messages
          ++ [("user", formatMessage
                (jsTrim ({ initState with inputValue := " hello " } : ClientState).inputValue)),
              ("bot", formatMessage
                (ServerData.mk "welcome" (some "ask_dob") none none).response)] :=
  ⟨rfl, by decide, rfl,
    (sendMessage_forwards_trimmed _ "my" rfl (by decide) rfl).1,
    (sendMessage_forwards_trimmed _ "my" rfl (by decide) rfl).2.2 _⟩

/-- C6: there is no retry or backoff logic: a failed request in
`initChat` or `sendMessage` appends exactly one localized error bubble to
the chat and issues no further request. -/
theorem failure_no_retry (st : ClientState) :
    ((stepE st (Event.initDone none)).2 = []
      ∧ (stepS st (Event.initDone none)).messages
          = st.messages ++ [("bot", formatMessage (initErrMsg st.currentLang))])
    ∧ ((stepE st (Event.sendDone none)).2 = []
      ∧ (stepS st (Event.sendDone none)).messages
          = st.messages ++ [("bot", formatMessage (sendErrMsg st.currentLang))]) :=
  ⟨⟨rfl, rfl⟩, ⟨rfl, rfl⟩⟩

/-- C9 (amended): `sendMessage` is atomic on error as far as the server-
sourced state goes — a failed `/api/chat` request leaves `currentState`,
`currentLang` and `currentHints` exactly as before the call, appends the
user bubble and one localized error bubble, removes the typing indicator
and the in-flight flag again — but it also clears the input field (and
transiently disables the send button), which is a further effect. -/
theorem sendMessage_error_atomicity (st : ClientState)
    (h1 : st.isProcessing = false) (h2 : jsTrim st.inputValue ≠ "") :
    (stepS (stepS st Event.sendStart) (Event.sendDone none)).currentState
        = st.currentState
    ∧ (stepS (stepS st Event.sendStart) (Event.sendDone none)).currentLang
        = st.currentLang
    ∧ (stepS (stepS st Event.sendStart) (Event.sendDone none)).currentHints
        = st.currentHints
    ∧ (stepS (stepS st Event.sendStart) (Event.sendDone none)).messages
        = st.messages ++ [("user", formatMessage (jsTrim st.inputValue)),
                          ("bot", formatMessage (sendErrMsg st.currentLang))]
    ∧ (stepS (stepS st Event.sendStart) (Event.sendDone none)).typing = false
    ∧ (stepS (stepS st Event.sendStart) (Event.sendDone none)).isProcessing = false
    ∧ (stepS (stepS st Event.sendStart) (Event.sendDone none)).btnDisabled = false
    ∧ (stepS (stepS st Event.sendStart) (Event.sendDone none)).inputValue = "" := by
  simp [stepS, stepE, h1, h2]

theorem sendMessage_error_atomicity_witness :
    ({ initState with inputValue := "hi" } : ClientState).isProcessing = false
    ∧ jsTrim ({ initState with inputValue := "hi" } : ClientState).inputValue ≠ ""
    ∧ (stepS (stepS { initState with inputValue := "hi" } Event.sendStart)
          (Event.sendDone none)).currentState
        = ({ initState with inputValue := "hi" } : ClientState).currentState :=
  ⟨rfl, by decide,
    (sendMessage_error_atomicity { initState with inputValue := "hi" }
      rfl (by decide)).1⟩

/-- C9 counterexample: the input field is cleared by a failed send, so
the user bubble, the error bubble and the transient typing indicator are
not the only effects of the error path. -/
theorem sendMessage_error_clears_input_cex :
    ({ initState with inputValue := "hi" } : ClientState).inputValue = "hi"
    ∧ (stepS (stepS { initState with inputValue := "hi" } Event.sendStart)
          (Event.sendDone none)).inputValue = "" := by
  exact ⟨rfl, by decide⟩

/-- C3 (amended): `initChat` and `resetChat` update `currentLang` and
`currentHints` only when the corresponding field is present in the
response (for `lang`: present and non-empty), otherwise keeping the
previous values; `sendMessage` treats `lang` the same way but never
touches `currentHints`; `toggleLanguage` overwrites `currentLang` with
the response's `lang` field unconditionally and replaces `currentHints`
with the response's `hints` field or with the empty table when absent. -/
theorem serverResponse_optional_fields (st : ClientState) (d : ServerData) :
    ((stepS st (Event.initDone (some d))).currentLang
        = (if truthyStr d.lang then d.lang else st.currentLang)
      ∧ (stepS st (Event.initDone (some d))).currentHints
        = (match d.hints with | some h => h | none => st.currentHints))
    ∧ ((stepS st (Event.resetDone (some d))).currentLang
        = (if truthyStr d.lang then d.lang else st.currentLang)
      ∧ (stepS st (Event.resetDone (some d))).currentHints
        = (match d.hints with | some h => h | none => st.currentHints))
    ∧ ((stepS st (Event.sendDone (some d))).currentLang
        = (if truthyStr d.lang then d.lang else st.currentLang)
      ∧ (stepS st (Event.sendDone (some d))).currentHints = st.currentHints)
    ∧ ((stepS st (Event.toggleDone (some d))).currentLang = d.lang
      ∧ (stepS st (Event.toggleDone (some d))).currentHints
        = (match d.hints with | some h => h | none => [])) :=
  ⟨⟨rfl, rfl⟩, ⟨rfl, rfl⟩, ⟨rfl, rfl⟩, ⟨rfl, rfl⟩⟩

/-- C3 counterexample: `toggleLanguage` does not keep the previous
`currentHints` when the `hints` field is absent from the `/api/set_lang`
response — it resets the table to `{}`. -/
theorem optional_fields_not_kept_cex :
    ({ initState with currentHints := [("greeting", "type your name")] }
        : ClientState).currentHints = [("greeting", "type your name")]
    ∧ (ServerData.mk "" none (some "en") none).hints = none
    ∧ (stepS { initState with currentHints := [("greeting", "type your name")] }
          (Event.toggleDone (some (ServerData.mk "" none (some "en") none)))
        ).currentHints = [] :=
  ⟨rfl, rfl, rfl⟩

/-! ## Provenance of the three server-sourced variables

For each of `currentState`, `currentLang`, `currentHints`: a single event
either leaves it alone, resets it to its hardcoded default, or copies it
out of the server reply the event carries.  Folding over a trace turns
that into an invariant of every reachable state. -/

lemma chatReplies_cons (e : Event) (es : List Event) :
    chatReplies (e :: es) = chatRepliesOfEvent e ++ chatReplies es := by
  simp [chatReplies]

lemma allReplies_cons (e : Event) (es : List Event) :
    allReplies (e :: es) = allRepliesOfEvent e ++ allReplies es := by
  simp [allReplies]

lemma stepS_currentState_src (st : ClientState) (e : Event) :
    (stepS st e).currentState = st.currentState
    ∨ (stepS st e).currentState = some "greeting"
    ∨ ∃ d ∈ chatRepliesOfEvent e, (stepS st e).currentState = d.state := by
  cases e with
  | userTypes s => exact Or.inl rfl
  | initStart => exact Or.inl rfl
  | initDone r' =>
      cases r' with
      | none => exact Or.inl rfl
      | some d =>
          exact Or.inr (Or.inr ⟨d, by simp [chatRepliesOfEvent], rfl⟩)
  | sendStart =>
      by_cases hc : (jsTrim st.inputValue == "" || st.isProcessing) = true
      · left; simp [stepS, stepE, hc]
      · left; simp [stepS, stepE, hc]
  | sendDone r' =>
      cases r' with
      | none => exact Or.inl rfl
      | some d =>
          exact Or.inr (Or.inr ⟨d, by simp [chatRepliesOfEvent], rfl⟩)
  | toggleStart => exact Or.inl rfl
  | toggleDone r' =>
      cases r' with
      | none => exact Or.inl rfl
      | some d => exact Or.inr (Or.inl rfl)
  | resetStart => exact Or.inr (Or.inl rfl)
  | resetDone r' =>
      cases r' with
      | none => exact Or.inl rfl
      | some d =>
          exact Or.inr (Or.inr ⟨d, by simp [chatRepliesOfEvent], rfl⟩)
  | pdfStart => exact Or.inl rfl
  | pdfDone ok => cases ok <;> exact Or.inl rfl

lemma foldl_currentState_src (es : List Event) : ∀ st : ClientState,
    (es.foldl stepS st).currentState = st.currentState
    ∨ (es.foldl stepS st).currentState = some "greeting"
    ∨ ∃ d ∈ chatReplies es, (es.foldl stepS st).currentState = d.state := by
  induction es with
  | nil => intro st; exact Or.inl rfl
  | cons e es ih =>
      intro st
      rw [List.foldl_cons]
      rcases ih (stepS st e) with h | h | ⟨d, hd, h⟩
      · rcases stepS_currentState_src st e with h2 | h2 | ⟨d, hd, h2⟩
        · exact Or.inl (h.trans h2)
        · exact Or.inr (Or.inl (h.trans h2))
        · refine Or.inr (Or.inr ⟨d, ?_, h.trans h2⟩)
          rw [chatReplies_cons]
          exact List.mem_append_left _ hd
      · exact Or.inr (Or.inl h)
      · refine Or.inr (Or.inr ⟨d, ?_, h⟩)
        rw [chatReplies_cons]
        exact List.mem_append_right _ hd

/-- C2 (amended): every value `currentState` takes is either the literal
'greeting' — its initial value, which `resetChat` also re-installs
synchronously before its `/api/init` reply arrives — or the `state` field
of some `/api/init` or `/api/chat` response of the trace; the client
never computes a state transition from a previous state itself. -/
theorem currentState_provenance (es : List Event) :
    (run es).currentState = some "greeting"
    ∨ ∃ d ∈ chatReplies es, (run es).currentState = d.state := by
  rcases foldl_currentState_src es initState with h | h | hh
  · exact Or.inl h
  · exact Or.inl h
  · exact Or.inr hh

/-- C2 counterexample: after a completed initialization whose reply
carried state 'ask_dob', a language toggle synchronously resets
`currentState` to the hardcoded 'greeting', a value that is the `state`
field of no `/api/init`/`/api/chat` response of the trace. -/
theorem currentState_not_from_server_cex :
    (run [Event.initStart,
          Event.initDone (some (ServerData.mk "hello" (some "ask_dob") (some "my") (some []))),
          Event.toggleStart,
          Event.toggleDone (some (ServerData.mk "" none (some "en") (some [])))]
      ).currentState = some "greeting"
    ∧ (chatReplies [Event.initStart,
          Event.initDone (some (ServerData.mk "hello" (some "ask_dob") (some "my") (some []))),
          Event.toggleStart,
          Event.toggleDone (some (ServerData.mk "" none (some "en") (some [])))]
        ).map ServerData.state = [some "ask_dob"]
    ∧ (some "greeting" : Option String) ∉ ([some "ask_dob"] : List (Option String)) := by
  refine ⟨by decide, by decide, by decide⟩

lemma stepS_currentLang_src (st : ClientState) (e : Event) :
    (stepS st e).currentLang = st.currentLang
    ∨ ∃ d ∈ allRepliesOfEvent e, (stepS st e).currentLang = d.lang := by
  cases e with
  | userTypes s => exact Or.inl rfl
  | initStart => exact Or.inl rfl
  | initDone r' =>
      cases r' with
      | none => exact Or.inl rfl
      | some d =>
          by_cases ht : truthyStr d.lang = true
          · refine Or.inr ⟨d, by simp [allRepliesOfEvent], ?_⟩
            simp [stepS, stepE, langUpd, ht]
          · left; simp [stepS, stepE, langUpd, ht]
  | sendStart =>
      by_cases hc : (jsTrim st.inputValue == "" || st.isProcessing) = true
      · left; simp [stepS, stepE, hc]
      · left; simp [stepS, stepE, hc]
  | sendDone r' =>
      cases r' with
      | none => exact Or.inl rfl
      | some d =>
          by_cases ht : truthyStr d.lang = true
          · refine Or.inr ⟨d, by simp [allRepliesOfEvent], ?_⟩
            simp [stepS, stepE, langUpd, ht]
          · left; simp [stepS, stepE, langUpd, ht]
  | toggleStart => exact Or.inl rfl
  | toggleDone r' =>
      cases r' with
      | none => exact Or.inl rfl
      | some d => exact Or.inr ⟨d, by simp [allRepliesOfEvent], rfl⟩
  | resetStart => exact Or.inl rfl
  | resetDone r' =>
      cases r' with
      | none => exact Or.inl rfl
      | some d =>
          by_cases ht : truthyStr d.lang = true
          · refine Or.inr ⟨d, by simp [allRepliesOfEvent], ?_⟩
            simp [stepS, stepE, langUpd, ht]
          · left; simp [stepS, stepE, langUpd, ht]
  | pdfStart => exact Or.inl rfl
  | pdfDone ok => cases ok <;> exact Or.inl rfl

lemma foldl_currentLang_src (es : List Event) : ∀ st : ClientState,
    (es.foldl stepS st).currentLang = st.currentLang
    ∨ ∃ d ∈ allReplies es, (es.foldl stepS st).currentLang = d.lang := by
  induction es with
  | nil => intro st; exact Or.inl rfl
  | cons e es ih =>
      intro st
      rw [List.foldl_cons]
      rcases ih (stepS st e) with h | ⟨d, hd, h⟩
      · rcases stepS_currentLang_src st e with h2 | ⟨d, hd, h2⟩
        · exact Or.inl (h.trans h2)
        · refine Or.inr ⟨d, ?_, h.trans h2⟩
          rw [allReplies_cons]
          exact List.mem_append_left _ hd
      · refine Or.inr ⟨d, ?_, h⟩
        rw [allReplies_cons]
        exact List.mem_append_right _ hd

lemma stepS_currentHints_src (st : ClientState) (e : Event) :
    (stepS st e).currentHints = st.currentHints
    ∨ (stepS st e).currentHints = []
    ∨ ∃ d ∈ allRepliesOfEvent e, some (stepS st e).currentHints = d.hints := by
  cases e with
  | userTypes s => exact Or.inl rfl
  | initStart => exact Or.inl rfl
  | initDone r' =>
      cases r' with
      | none => exact Or.inl rfl
      | some d =>
          cases hh : d.hints with
          | none => left; simp [stepS, stepE, hintsUpd, hh]
          | some h =>
              refine Or.inr (Or.inr ⟨d, by simp [allRepliesOfEvent], ?_⟩)
              simp [stepS, stepE, hintsUpd, hh]
  | sendStart =>
      by_cases hc : (jsTrim st.inputValue == "" || st.isProcessing) = true
      · left; simp [stepS, stepE, hc]
      · left; simp [stepS, stepE, hc]
  | sendDone r' => cases r' <;> exact Or.inl rfl
  | toggleStart => exact Or.inl rfl
  | toggleDone r' =>
      cases r' with
      | none => exact Or.inl rfl
      | some d =>
          cases hh : d.hints with
          | none => right; left; simp [stepS, stepE, hintsOrEmpty, hh]
          | some h =>
              refine Or.inr (Or.inr ⟨d, by simp [allRepliesOfEvent], ?_⟩)
              simp [stepS, stepE, hintsOrEmpty, hh]
  | resetStart => exact Or.inl rfl
  | resetDone r' =>
      cases r' with
      | none => exact Or.inl rfl
      | some d =>
          cases hh : d.hints with
          | none => left; simp [stepS, stepE, hintsUpd, hh]
          | some h =>
              refine Or.inr (Or.inr ⟨d, by simp [allRepliesOfEvent], ?_⟩)
              simp [stepS, stepE, hintsUpd, hh]
  | pdfStart => exact Or.inl rfl
  | pdfDone ok => cases ok <;> exact Or.inl rfl

lemma foldl_currentHints_src (es : List Event) : ∀ st : ClientState,
    (es.foldl stepS st).currentHints = st.currentHints
    ∨ (es.foldl stepS st).currentHints = []
    ∨ ∃ d ∈ allReplies es, some (es.foldl stepS st).currentHints = d.hints := by
  induction es with
  | nil => intro st; exact Or.inl rfl
  | cons e es ih =>
      intro st
      rw [List.foldl_cons]
      rcases ih (stepS st e) with h | h | ⟨d, hd, h⟩
      · rcases stepS_currentHints_src st e with h2 | h2 | ⟨d, hd, h2⟩
        · exact Or.inl (h.trans h2)
        · exact Or.inr (Or.inl (h.trans h2))
        · refine Or.inr (Or.inr ⟨d, ?_, ?_⟩)
          · rw [allReplies_cons]; exact List.mem_append_left _ hd
          · rw [h]; exact h2
      · exact Or.inr (Or.inl h)
      · refine Or.inr (Or.inr ⟨d, ?_, h⟩)
        rw [allReplies_cons]
        exact List.mem_append_right _ hd

/-- C7 (amended): besides the transient `isProcessing` re-entrancy flag
(and the DOM pieces the script renders into), the mutable client-side
entities are `currentState`, `currentLang` and `currentHints`, and each
of the three only ever holds its hardcoded default ('greeting', 'my',
the empty table) or a value copied out of a server response of the
session's trace. -/
theorem mutable_entities_provenance (es : List Event) :
    ((run es).currentState = some "greeting"
      ∨ ∃ d ∈ chatReplies es, (run es).currentState = d.state)
    ∧ ((run es).currentLang = some "my"
      ∨ ∃ d ∈ allReplies es, (run es).currentLang = d.lang)
    ∧ ((run es).currentHints = []
      ∨ ∃ d ∈ allReplies es, some (run es).currentHints = d.hints) := by
  refine ⟨?_, ?_, ?_⟩
  · rcases foldl_currentState_src es initState with h | h | hh
    · exact Or.inl h
    · exact Or.inl h
    · exact Or.inr hh
  · rcases foldl_currentLang_src es initState with h | hh
    · exact Or.inl h
    · exact Or.inr hh
  · rcases foldl_currentHints_src es initState with h | h | hh
    · exact Or.inl (h.trans rfl)
    · exact Or.inl h
    · exact Or.inr hh

/-- C7 counterexample: `isProcessing` (script.js line 13) is a fourth
mutable top-level variable — it changes value during a send with no
server response involved — so the three entities are not the only
mutable client-side state. -/
theorem isProcessing_mutable_cex :
    initState.isProcessing = false
    ∧ (run [Event.userTypes "hi", Event.sendStart]).isProcessing = true
    ∧ allReplies [Event.userTypes "hi", Event.sendStart] = [] :=
  ⟨rfl, by decide, rfl⟩

/-! ## `formatMessage` on delimiter-free input (claim C8)

When the input contains no markup delimiter, every markup pass of
`formatMessage` is the identity, so the output is exactly the
entity-escaped input.  The lemmas below characterise the escaping pass
as a character map and show that it neither creates nor keeps the
delimiters and the character '<'. -/

/-- `pat` occurs as a contiguous substring of `l`. -/
def hasSub (pat : List Char) : List Char → Bool
  | [] => pat.isEmpty
  | c :: t => pat.isPrefixOf (c :: t) || hasSub pat t

/-- The characters occurring in the three entity replacement texts. -/
def entityChars : List Char := ['&', 'a', 'm', 'p', ';', 'l', 't', 'g']

lemma escapeHtmlL_eq_flatMap (l : List Char) :
    escapeHtmlL l = l.flatMap escChar := by
  induction l with
  | nil => rfl
  | cons c t ih =>
      simp only [escapeHtmlL, replaceCharAll] at ih ⊢
      by_cases h1 : c = '&'
      · subst h1; simp [escChar, ih]
      · by_cases h2 : c = '<'
        · subst h2; simp [escChar, ih]
        · by_cases h3 : c = '>'
          · subst h3; simp [escChar, ih]
          · simp [escChar, h1, h2, h3, ih]

lemma mem_escChar {d c : Char} (h : d ∈ escChar c) :
    d ∈ entityChars ∨ d = c := by
  by_cases h1 : c = '&'
  · subst h1; simp [escChar] at h
    rcases h with h | h | h | h | h <;> subst h <;> simp [entityChars]
  · by_cases h2 : c = '<'
    · subst h2; simp [escChar] at h
      rcases h with h | h | h | h <;> subst h <;> simp [entityChars]
    · by_cases h3 : c = '>'
      · subst h3; simp [escChar] at h
        rcases h with h | h | h | h <;> subst h <;> simp [entityChars]
      · simp [escChar, h1, h2, h3] at h
        exact Or.inr h

lemma lt_not_mem_escape (l : List Char) : '<' ∉ l.flatMap escChar := by
  intro h
  rcases List.mem_flatMap.mp h with ⟨c, _, hm⟩
  rcases mem_escChar hm with h' | h'
  · simp [entityChars] at h'
  · subst h'
    simp [escChar] at hm

lemma not_mem_escape {d : Char} (hd : d ∉ entityChars) {l : List Char}
    (h : d ∉ l) : d ∉ l.flatMap escChar := by
  intro hmem
  rcases List.mem_flatMap.mp hmem with ⟨c, hc, hm⟩
  rcases mem_escChar hm with h' | h'
  · exact hd h'
  · exact h (h' ▸ hc)

lemma escChar_ne_special {c : Char} (h1 : c ≠ '&') (h2 : c ≠ '<')
    (h3 : c ≠ '>') : escChar c = [c] := by
  simp [escChar, h1, h2, h3]

/-- The first character of the escaped text is '&' or the first
character of the original text. -/
lemma head_escape {t : List Char} {p : Char}
    (h : (t.flatMap escChar).head? = some p) : p = '&' ∨ t.head? = some p := by
  cases t with
  | nil => simp at h
  | cons c t' =>
      rw [List.flatMap_cons] at h
      by_cases h1 : c = '&'
      · subst h1; simp [escChar] at h; exact Or.inl h.symm
      · by_cases h2 : c = '<'
        · subst h2; simp [escChar] at h; exact Or.inl h.symm
        · by_cases h3 : c = '>'
          · subst h3; simp [escChar] at h; exact Or.inl h.symm
          · rw [escChar_ne_special h1 h2 h3] at h
            simp at h
            exact Or.inr (by simp [h])

lemma hasSub_of_isPrefixOf {pat l : List Char} (h : pat.isPrefixOf l = true) :
    hasSub pat l = true := by
  cases l with
  | nil =>
      cases pat with
      | nil => rfl
      | cons a p => simp [List.isPrefixOf] at h
  | cons c t => simp [hasSub, h]

lemma hasSub_cons_false {pat : List Char} {c : Char} {t : List Char}
    (h : hasSub pat (c :: t) = false) :
    pat.isPrefixOf (c :: t) = false ∧ hasSub pat t = false := by
  simpa [hasSub] using h

lemma hasSub_single_of_not_mem {d : Char} {l : List Char} (h : d ∉ l) :
    hasSub [d] l = false := by
  induction l with
  | nil => rfl
  | cons c t ih =>
      have hdc : ¬ d = c := fun e => h (e ▸ List.mem_cons_self c t)
      have ht : d ∉ t := fun e => h (List.mem_cons_of_mem c e)
      simp [hasSub, List.isPrefixOf, hdc, ih ht]

lemma hasSub_append_not_head {d : Char} (p : List Char) :
    ∀ x : List Char, (∀ a ∈ x, a ≠ d) → ∀ y : List Char,
      hasSub (d :: p) (x ++ y) = hasSub (d :: p) y := by
  intro x
  induction x with
  | nil => intro _ y; rfl
  | cons a x ih =>
      intro hx y
      have ha : ¬ d = a := fun e => (hx a (List.mem_cons_self a x)) e.symm
      have hx' : ∀ b ∈ x, b ≠ d := fun b hb => hx b (List.mem_cons_of_mem a hb)
      simp [hasSub, List.isPrefixOf, ha, ih hx' y]

lemma mem_escChar_ne {d c : Char} (hd : d ∉ entityChars) (hc : c ≠ d) :
    ∀ a ∈ escChar c, a ≠ d := by
  intro a ha
  rcases mem_escChar ha with h | h
  · exact fun e => hd (e ▸ h)
  · exact fun e => hc (h.symm.trans e)

lemma replicate_isPrefixOf_escape {d : Char} (hd : d ∉ entityChars)
    (h2 : d ≠ '<') (h3 : d ≠ '>') :
    ∀ (t : List Char) (j : Nat),
      (List.replicate j d).isPrefixOf (t.flatMap escChar)
        = (List.replicate j d).isPrefixOf t := by
  have hd_amp : d ≠ '&' := fun h => hd (h ▸ (by simp [entityChars]))
  intro t
  induction t with
  | nil => intro j; simp
  | cons c t' ih =>
      intro j
      cases j with
      | zero => simp
      | succ j =>
          rw [List.flatMap_cons, List.replicate_succ]
          by_cases e1 : c = '&'
          · subst e1
            have hb : (d == '&') = false := by simp [hd_amp]
            simp [escChar, List.isPrefixOf, hb]
          · by_cases e2 : c = '<'
            · subst e2
              have hb : (d == '&') = false := by simp [hd_amp]
              have hb2 : (d == '<') = false := by simp [h2]
              simp [escChar, List.isPrefixOf, hb, hb2]
            · by_cases e3 : c = '>'
              · subst e3
                have hb : (d == '&') = false := by simp [hd_amp]
                have hb3 : (d == '>') = false := by simp [h3]
                simp [escChar, List.isPrefixOf, hb, hb3]
              · rw [escChar_ne_special e1 e2 e3, List.singleton_append]
                simp [List.isPrefixOf, ih j]

lemma hasSub_replicate_escape {d : Char} (hd : d ∉ entityChars)
    (h2 : d ≠ '<') (h3 : d ≠ '>') (k : Nat) :
    ∀ l : List Char, hasSub (List.replicate (k + 1) d) l = false →
      hasSub (List.replicate (k + 1) d) (l.flatMap escChar) = false := by
  have hd_amp : d ≠ '&' := fun h => hd (h ▸ (by simp [entityChars]))
  intro l
  induction l with
  | nil => intro _; simp [hasSub, List.replicate_succ]
  | cons c t ih =>
      intro h
      obtain ⟨hp, ht⟩ := hasSub_cons_false h
      rw [List.flatMap_cons]
      by_cases hc : c = d
      · have e1 : c ≠ '&' := by rw [hc]; exact hd_amp
        have e2 : c ≠ '<' := by rw [hc]; exact h2
        have e3 : c ≠ '>' := by rw [hc]; exact h3
        rw [escChar_ne_special e1 e2 e3, List.singleton_append]
        have hflat : (c :: t).flatMap escChar = c :: t.flatMap escChar := by
          rw [List.flatMap_cons, escChar_ne_special e1 e2 e3, List.singleton_append]
        have hpre : (List.replicate (k + 1) d).isPrefixOf (c :: t.flatMap escChar)
            = false := by
          rw [← hflat, replicate_isPrefixOf_escape hd h2 h3]
          exact hp
        simp [hasSub, hpre, ih ht]
      · have hx : ∀ a ∈ escChar c, a ≠ d := mem_escChar_ne hd hc
        rw [List.replicate_succ,
            hasSub_append_not_head (List.replicate k d) (escChar c) hx
              (t.flatMap escChar), ← List.replicate_succ]
        exact ih ht

lemma findClose_append_skip (q : Char) (cl' y : List Char) :
    ∀ x : List Char, (∀ a ∈ x, a ≠ q) → (∀ a ∈ x, a ≠ '\n') →
      findClose (q :: cl') (x ++ y)
        = (findClose (q :: cl') y).map (fun p => (x ++ p.1, p.2)) := by
  intro x
  induction x with
  | nil =>
      intro _ _
      cases hy : findClose (q :: cl') y <;> simp [hy]
  | cons a x ih =>
      intro hq hn
      have hqa : (q == a) = false := by
        have ha : a ≠ q := hq a (List.mem_cons_self a x)
        simp [Ne.symm ha]
      have hna : ¬ a = '\n' := hn a (List.mem_cons_self a x)
      have hq' : ∀ b ∈ x, b ≠ q := fun b hb => hq b (List.mem_cons_of_mem a hb)
      have hn' : ∀ b ∈ x, b ≠ '\n' := fun b hb => hn b (List.mem_cons_of_mem a hb)
      rw [List.cons_append]
      rw [show findClose (q :: cl') (a :: (x ++ y))
            = (findClose (q :: cl') (x ++ y)).map (fun p => (a :: p.1, p.2)) by
        simp [findClose, List.isPrefixOf, hqa, hna]]
      rw [ih hq' hn']
      cases hy : findClose (q :: cl') y <;> simp [hy]

lemma findClose_escape (q : Char) (cl' : List Char)
    (hq : q ∉ entityChars) (hq2 : q ≠ '<') (hq3 : q ≠ '>') (hqn : q ≠ '\n')
    (hpre : ∀ u : List Char, cl'.isPrefixOf (u.flatMap escChar) = cl'.isPrefixOf u)
    (hdrop : ∀ u : List Char, cl'.isPrefixOf u = true →
      (u.flatMap escChar).drop cl'.length = (u.drop cl'.length).flatMap escChar) :
    ∀ t : List Char,
      findClose (q :: cl') (t.flatMap escChar)
        = (findClose (q :: cl') t).map
            (fun p => (p.1.flatMap escChar, p.2.flatMap escChar)) := by
  have hq_amp : q ≠ '&' := fun h => hq (h ▸ (by simp [entityChars]))
  intro t
  induction t with
  | nil => simp [findClose, List.isPrefixOf]
  | cons c t' ih =>
      rw [List.flatMap_cons]
      by_cases hmatch : (q :: cl').isPrefixOf (c :: t') = true
      · have hm : q = c ∧ cl'.isPrefixOf t' = true := by
          simpa [List.isPrefixOf] using hmatch
        obtain ⟨h1, hcl⟩ := hm
        subst h1
        rw [escChar_ne_special hq_amp hq2 hq3, List.singleton_append]
        have hc2 : cl'.isPrefixOf (t'.flatMap escChar) = true := by
          rw [hpre t']; exact hcl
        simp [findClose, List.isPrefixOf, hcl, hc2, hdrop t' hcl]
      · have hmf : (q :: cl').isPrefixOf (c :: t') = false :=
          Bool.eq_false_iff.mpr hmatch
        by_cases hcn : c = '\n'
        · subst hcn
          have h1 : escChar '\n' = ['\n'] :=
            escChar_ne_special (by decide) (by decide) (by decide)
          have hq' : (q == '\n') = false := by simp [hqn]
          rw [h1, List.singleton_append]
          simp [findClose, List.isPrefixOf, hq']
        · by_cases hcq : c = q
          · subst hcq
            rw [escChar_ne_special hq_amp hq2 hq3, List.singleton_append]
            have hcl : cl'.isPrefixOf t' = false := by
              simpa [List.isPrefixOf] using hmf
            have hcl2 : cl'.isPrefixOf (t'.flatMap escChar) = false := by
              rw [hpre t']; exact hcl
            rw [show findClose (c :: cl') (c :: t'.flatMap escChar)
                  = (findClose (c :: cl') (t'.flatMap escChar)).map
                      (fun p => (c :: p.1, p.2)) by
              simp [findClose, List.isPrefixOf, hcl2, hqn]]
            rw [ih]
            rw [show findClose (c :: cl') (c :: t')
                  = (findClose (c :: cl') t').map (fun p => (c :: p.1, p.2)) by
              simp [findClose, List.isPrefixOf, hcl, hqn]]
            cases hy : findClose (c :: cl') t' with
            | none => simp [hy]
            | some p =>
                simp [hy, List.flatMap_cons,
                  escChar_ne_special hq_amp hq2 hq3]
          · have hx1 : ∀ a ∈ escChar c, a ≠ q := mem_escChar_ne hq hcq
            have hx2 : ∀ a ∈ escChar c, a ≠ '\n' :=
              mem_escChar_ne (by decide) hcn
            rw [findClose_append_skip q cl' (t'.flatMap escChar) (escChar c)
                  hx1 hx2]
            rw [ih]
            rw [show findClose (q :: cl') (c :: t')
                  = (findClose (q :: cl') t').map (fun p => (c :: p.1, p.2)) by
              simp [findClose, hmf, hcn]]
            cases hy : findClose (q :: cl') t' with
            | none => simp [hy]
            | some p => simp [hy, List.flatMap_cons]

/-- The two-stage lazy search of the link pattern succeeds at this
position (cf. `replaceLink`). -/
def linkMatchAt (t : List Char) : Bool :=
  match findClose "](".data t with
  | some p => (findClose ")".data p.2).isSome
  | none => false

/-- Some position of `l` carries a match of `/\[(.*?)\]\((.*?)\)/`. -/
def hasLink : List Char → Bool
  | [] => false
  | c :: t => ((c == '[') && linkMatchAt t) || hasLink t

lemma hasLink_append :
    ∀ x : List Char, (∀ a ∈ x, a ≠ '[') → ∀ y : List Char,
      hasLink (x ++ y) = hasLink y := by
  intro x
  induction x with
  | nil => intro _ y; rfl
  | cons a x ih =>
      intro hx y
      have ha : (a == '[') = false := by
        simp [hx a (List.mem_cons_self a x)]
      have hx' : ∀ b ∈ x, b ≠ '[' := fun b hb => hx b (List.mem_cons_of_mem a hb)
      simp [hasLink, ha, ih hx' y]

lemma findClose_paren_escape :
    ∀ t : List Char,
      findClose [')'] (t.flatMap escChar)
        = (findClose [')'] t).map
            (fun p => (p.1.flatMap escChar, p.2.flatMap escChar)) := by
  refine findClose_escape ')' [] (by decide) (by decide) (by decide) (by decide)
    (fun u => by simp) (fun u _ => by simp)

lemma findClose_brack_escape :
    ∀ t : List Char,
      findClose (']' :: ['(']) (t.flatMap escChar)
        = (findClose (']' :: ['(']) t).map
            (fun p => (p.1.flatMap escChar, p.2.flatMap escChar)) := by
  refine findClose_escape ']' ['('] (by decide) (by decide) (by decide) (by decide)
    ?hpre ?hdrop
  case hpre =>
    intro u
    cases u with
    | nil => rfl
    | cons h u' =>
        rw [List.flatMap_cons]
        have hfa : (('(' : Char) == '&') = false := by decide
        by_cases e1 : h = '&'
        · subst e1; simp [escChar, List.isPrefixOf, hfa]
        · by_cases e2 : h = '<'
          · subst e2; simp [escChar, List.isPrefixOf, hfa]
          · by_cases e3 : h = '>'
            · subst e3; simp [escChar, List.isPrefixOf, hfa]
            · rw [escChar_ne_special e1 e2 e3, List.singleton_append]
              simp [List.isPrefixOf]
  case hdrop =>
    intro u hu
    cases u with
    | nil => simp [List.isPrefixOf] at hu
    | cons h u' =>
        have hh : h = '(' := by
          have := hu
          simp [List.isPrefixOf] at this
          exact this.symm
        subst hh
        rw [List.flatMap_cons,
            escChar_ne_special (by decide) (by decide) (by decide),
            List.singleton_append]
        simp

lemma linkMatchAt_escape (t : List Char) :
    linkMatchAt (t.flatMap escChar) = linkMatchAt t := by
  unfold linkMatchAt
  have hb : "](".data = (']' :: ['(']) := rfl
  have hp : ")".data = [')'] := rfl
  rw [hb, hp, findClose_brack_escape t]
  cases hy : findClose (']' :: ['(']) t with
  | none => simp
  | some p =>
      simp only [Option.map_some']
      rw [findClose_paren_escape p.2]
      cases findClose [')'] p.2 <;> simp

lemma hasLink_escape : ∀ l : List Char, hasLink l = false →
    hasLink (l.flatMap escChar) = false := by
  intro l
  induction l with
  | nil => intro _; rfl
  | cons c t ih =>
      intro h
      have h1 : ((c == '[') && linkMatchAt t) = false ∧ hasLink t = false := by
        simpa [hasLink] using h
      rw [List.flatMap_cons]
      by_cases hc : c = '['
      · subst hc
        rw [escChar_ne_special (by decide) (by decide) (by decide),
            List.singleton_append]
        have hm : linkMatchAt t = false := by simpa using h1.1
        simp [hasLink, linkMatchAt_escape, hm, ih h1.2]
      · have hx : ∀ a ∈ escChar c, a ≠ '[' := mem_escChar_ne (by decide) hc
        rw [hasLink_append (escChar c) hx (t.flatMap escChar)]
        exact ih h1.2

lemma replaceLazy_id (op cl : List Char) (wrap : List Char → List Char) :
    ∀ (fu : Nat) (l : List Char), hasSub op l = false →
      replaceLazy op cl wrap fu l = l := by
  intro fu
  induction fu with
  | zero => intro l _; cases l <;> rfl
  | succ fu ih =>
      intro l h
      cases l with
      | nil => rfl
      | cons c t =>
          obtain ⟨hp, ht⟩ := hasSub_cons_false h
          simp [replaceLazy, hp, ih t ht]

lemma replaceLink_id :
    ∀ (fu : Nat) (l : List Char), hasLink l = false →
      replaceLink fu l = l := by
  intro fu
  induction fu with
  | zero => intro l _; cases l <;> rfl
  | succ fu ih =>
      intro l h
      cases l with
      | nil => rfl
      | cons c t =>
          have h1 : ((c == '[') && linkMatchAt t) = false ∧ hasLink t = false := by
            simpa [hasLink] using h
          by_cases hc : c = '['
          · subst hc
            have hm : linkMatchAt t = false := by simpa using h1.1
            unfold linkMatchAt at hm
            cases hy : findClose "](".data t with
            | none => simp [replaceLink, hy, ih t h1.2]
            | some p =>
                obtain ⟨ptxt, prest⟩ := p
                rw [hy] at hm
                simp only [Option.isSome] at hm
                cases hz : findClose ")".data prest with
                | none => simp [replaceLink, hy, hz, ih t h1.2]
                | some pq => rw [hz] at hm; simp at hm
          · simp [replaceLink, hc, ih t h1.2]

lemma self_isPrefixOf_append (p r : List Char) :
    p.isPrefixOf (p ++ r) = true := by
  induction p with
  | nil => simp
  | cons a p ih => simp [List.isPrefixOf, ih]

lemma hasSub_sep_of_big {n : Nat} (h : 3 ≤ n) (l : List Char) :
    hasSub (List.replicate 3 '═') (List.replicate n '═' ++ l) = true := by
  apply hasSub_of_isPrefixOf
  obtain ⟨k, rfl⟩ := Nat.exists_eq_add_of_le h
  rw [List.replicate_add, List.append_assoc]
  exact self_isPrefixOf_append _ _

lemma hasSub_cons_of (pat : List Char) (c : Char) (t : List Char)
    (h : hasSub pat t = true) : hasSub pat (c :: t) = true := by
  simp [hasSub, h]

lemma hasSub_append_of (pat : List Char) :
    ∀ (x y : List Char), hasSub pat y = true → hasSub pat (x ++ y) = true := by
  intro x
  induction x with
  | nil => intro y h; exact h
  | cons a x ih =>
      intro y h
      exact hasSub_cons_of pat a (x ++ y) (ih y h)

lemma replaceSepAux_id :
    ∀ (l : List Char) (n : Nat),
      hasSub (List.replicate 3 '═') (List.replicate n '═' ++ l) = false →
      replaceSepAux n l = List.replicate n '═' ++ l := by
  intro l
  induction l with
  | nil =>
      intro n h
      have hn : ¬ 3 ≤ n := by
        intro hle
        rw [hasSub_sep_of_big hle []] at h
        cases h
      simp [replaceSepAux, hn]
  | cons c t ih =>
      intro n h
      by_cases hc : c = '═'
      · subst hc
        have hshift : List.replicate n '═' ++ '═' :: t
            = List.replicate (n + 1) '═' ++ t := by
          rw [List.replicate_succ']
          simp
        rw [hshift] at h
        have hstep : replaceSepAux n ('═' :: t) = replaceSepAux (n + 1) t := by
          simp [replaceSepAux]
        rw [hstep, ih (n + 1) h, hshift]
      · have hn : ¬ 3 ≤ n := by
          intro hle
          rw [hasSub_sep_of_big hle (c :: t)] at h
          cases h
        have ht : hasSub (List.replicate 3 '═') t = false := by
          cases hcontra : hasSub (List.replicate 3 '═') t
          · rfl
          · exfalso
            have hup : hasSub (List.replicate 3 '═')
                (List.replicate n '═' ++ c :: t) = true :=
              hasSub_append_of _ _ _ (hasSub_cons_of _ c t hcontra)
            rw [hup] at h
            cases h
        have h0 : replaceSepAux 0 t = t := by
          have := ih 0 (by simpa using ht)
          simpa using this
        simp [replaceSepAux, hc, hn, h0]

lemma replaceSep_id (l : List Char)
    (h : hasSub (List.replicate 3 '═') l = false) : replaceSep l = l := by
  have := replaceSepAux_id l 0 (by simpa using h)
  simpa [replaceSep] using this

/-- The backtick character (U+0060), the delimiter of the inline-code
pattern. -/
def backquoteChar : Char := Char.ofNat 96

lemma backquoteStr_data : backquoteStr.data = [backquoteChar] := by decide

/-- The input contains none of the markup delimiters of `formatMessage`:
no "**", no '_', no match of the link pattern, no backtick, and no run of
three or more '═'. -/
def noMarkupDelims (s : String) : Prop :=
  hasSub "**".data s.data = false
  ∧ '_' ∉ s.data
  ∧ hasLink s.data = false
  ∧ backquoteChar ∉ s.data
  ∧ hasSub "═══".data s.data = false

instance (s : String) : Decidable (noMarkupDelims s) := by
  unfold noMarkupDelims
  infer_instance

/-- C8: `formatMessage` escapes '&', '<', '>' to HTML entities before any
markup substitution, so on every input containing none of the markup
delimiters (`**`, `_`, `[..](..)`, backtick, three-or-more '═') the
output is exactly the entity-escaped input, and no '<' of the input
survives into the output. -/
theorem formatMessage_escape_only (s : String) (h : noMarkupDelims s) :
    formatMessage s = escapeHtml s ∧ '<' ∉ (formatMessage s).data := by
  obtain ⟨hbold, hit, hlink, hbq, hsep⟩ := h
  have hflat : escapeHtmlL s.data = s.data.flatMap escChar :=
    escapeHtmlL_eq_flatMap s.data
  have hbold2 : hasSub "**".data (escapeHtmlL s.data) = false := by
    have e : "**".data = List.replicate (1 + 1) '*' := by decide
    rw [hflat, e]
    rw [e] at hbold
    exact hasSub_replicate_escape (by decide) (by decide) (by decide) 1 s.data hbold
  have hit2 : hasSub "_".data (escapeHtmlL s.data) = false := by
    rw [hflat]
    have e : "_".data = ['_'] := rfl
    rw [e]
    exact hasSub_single_of_not_mem (not_mem_escape (by decide) hit)
  have hlink2 : hasLink (escapeHtmlL s.data) = false := by
    rw [hflat]
    exact hasLink_escape s.data hlink
  have hbq2 : hasSub backquoteStr.data (escapeHtmlL s.data) = false := by
    rw [hflat, backquoteStr_data]
    exact hasSub_single_of_not_mem (not_mem_escape (by decide) hbq)
  have hsep2 : hasSub (List.replicate 3 '═') (escapeHtmlL s.data) = false := by
    have e : "═══".data = List.replicate (2 + 1) '═' := by decide
    rw [e] at hsep
    have h3 := hasSub_replicate_escape (d := '═') (by decide) (by decide)
      (by decide) 2 s.data hsep
    rw [hflat]
    simpa using h3
  have hfm : formatMessage s = ⟨escapeHtmlL s.data⟩ := by
    simp only [formatMessage]
    rw [show replaceLazyAll "**".data "**".data strongWrap (escapeHtmlL s.data)
          = escapeHtmlL s.data from replaceLazy_id _ _ _ _ _ hbold2]
    rw [show replaceLazyAll "_".data "_".data emWrap (escapeHtmlL s.data)
          = escapeHtmlL s.data from replaceLazy_id _ _ _ _ _ hit2]
    rw [show replaceLinkAll (escapeHtmlL s.data) = escapeHtmlL s.data from
          replaceLink_id _ _ hlink2]
    rw [show replaceLazyAll backquoteStr.data backquoteStr.data codeWrap
          (escapeHtmlL s.data) = escapeHtmlL s.data from
          replaceLazy_id _ _ _ _ _ hbq2]
    rw [replaceSep_id _ hsep2]
  constructor
  · rw [hfm]; rfl
  · rw [hfm]
    show '<' ∉ escapeHtmlL s.data
    rw [hflat]
    exact lt_not_mem_escape s.data

theorem formatMessage_escape_only_witness :
    noMarkupDelims "a <b> & c"
    ∧ (formatMessage "a <b> & c" = escapeHtml "a <b> & c"
        ∧ '<' ∉ (formatMessage "a <b> & c").data) :=
  ⟨by decide, formatMessage_escape_only "a <b> & c" (by decide)⟩
